import Mathlib

/-!
Verification of the candidate-resolution and resumable-job-execution engine
of `scripts/batch_add_songs.py`.

Strings are modelled as `List Char` (Python `str` with ASCII character-class
semantics: `\w` is alphanumeric-or-underscore, `\s` is the six ASCII
whitespace characters).  Each Python regex substitution used by the script
is embedded as a recursive function on character lists that reproduces the
leftmost-match / continue-after-replacement semantics of `re.sub` for the
concrete pattern in question.  The progress ledger is a record of four
lists, the remote search and import collaborators are function parameters,
and each collaborator call or ledger write performed by the code is also
recorded in an explicit event trace so that frame properties (such as that
no import happens, or that nothing is written) can be stated.
-/

namespace BatchAdd

/-- Python strings, modelled as lists of characters. -/
abbrev Str := List Char

/-- Python `\s` (ASCII): space, tab, newline, carriage return, vertical tab, form feed. -/
def pyIsSpace (c : Char) : Bool :=
  c = ' ' || c = '\t' || c = '\n' || c = '\r' || c = '\x0b' || c = '\x0c'

/-- Python `\w` (ASCII): letters, digits and underscore. -/
def isWordChar (c : Char) : Bool :=
  c.isAlphanum || c = '_'

/-- Embeds `str.strip()`: drop leading and trailing whitespace. -/
def pyStrip (l : Str) : Str :=
  ((l.dropWhile pyIsSpace).reverse.dropWhile pyIsSpace).reverse

/-- Embeds `str.lower()` (ASCII). -/
def pyLower (l : Str) : Str := l.map Char.toLower

/-- Embeds `re.sub(r'[^\w\s]', '', s)`: keep only word characters and whitespace. -/
def stripNonWord (l : Str) : Str :=
  l.filter (fun c => isWordChar c || pyIsSpace c)

/-- Embeds `re.sub(r'\s+', ' ', s)`: collapse every whitespace run to a single space. -/
def collapseWs : Str → Str
  | [] => []
  | [c] => if pyIsSpace c then [' '] else [c]
  | c1 :: c2 :: cs =>
    if pyIsSpace c1 && pyIsSpace c2 then collapseWs (c2 :: cs)
    else (if pyIsSpace c1 then ' ' else c1) :: collapseWs (c2 :: cs)

/-- Skip to just past the first `')'`, if any (the greedy `[^)]*\)` part of
the parenthetical pattern). -/
def findCloseParen : Str → Option Str
  | [] => none
  | c :: cs => if c = ')' then some cs else findCloseParen cs

/-- The body of the parenthetical match, applied after the leading `\s*`
has been consumed: require a literal `'('`, then `[^)]*\)` (greedy up to
the first close paren), then consume trailing `\s*`. -/
def parenMatchCore : Str → Option Str
  | c :: rest =>
    if c = '(' then (findCloseParen rest).map (fun after => after.dropWhile pyIsSpace)
    else none
  | [] => none

/-- Try to match `\s*\([^)]*\)\s*` starting exactly at the head of `l`;
on success return the remainder of the string after the match. -/
def parenMatchAt (l : Str) : Option Str :=
  parenMatchCore (l.dropWhile pyIsSpace)

theorem findCloseParen_length : ∀ {l r : Str}, findCloseParen l = some r →
    r.length < l.length := by
  intro l
  induction l with
  | nil => intro r h; simp [findCloseParen] at h
  | cons c cs ih =>
    intro r h
    rw [findCloseParen] at h
    split at h
    · cases h; rw [List.length_cons]; omega
    · have := ih h; rw [List.length_cons]; omega

theorem parenMatchCore_length : ∀ {d r : Str}, parenMatchCore d = some r →
    r.length < d.length := by
  intro d r h
  match d with
  | [] => simp [parenMatchCore] at h
  | c :: rest =>
    rw [parenMatchCore] at h
    split at h
    · obtain ⟨after, hf, hr⟩ := Option.map_eq_some'.mp h
      have h1 : after.length < rest.length := findCloseParen_length hf
      have h3 : (after.dropWhile pyIsSpace).length ≤ after.length :=
        (List.dropWhile_sublist pyIsSpace).length_le
      rw [← hr]
      rw [List.length_cons]
      omega
    · simp at h

theorem parenMatchAt_length {l r : Str} (h : parenMatchAt l = some r) :
    r.length < l.length := by
  have h1 : r.length < (l.dropWhile pyIsSpace).length := parenMatchCore_length h
  have h2 : (l.dropWhile pyIsSpace).length ≤ l.length :=
    (List.dropWhile_sublist pyIsSpace).length_le
  omega

/-- Fuelled scan for `re.sub(r'\s*\([^)]*\)\s*', ' ', s)`: try a match at
each position, replacing a match with one space and resuming after it,
else emitting the character and advancing by one.  Each step consumes at
least one character, so fuel `l.length` makes the zero-fuel case
unreachable (see `subParenFuel_adequate`). -/
def subParenFuel : Nat → Str → Str
  | _, [] => []
  | 0, _ :: _ => []
  | n + 1, c :: cs =>
    match parenMatchAt (c :: cs) with
    | some rest => ' ' :: subParenFuel n rest
    | none => c :: subParenFuel n cs

/-- Embeds `re.sub(r'\s*\([^)]*\)\s*', ' ', s)`: replace each (leftmost-first)
parenthetical group, with surrounding whitespace, by a single space. -/
def subParen (l : Str) : Str :=
  subParenFuel l.length l

/-- The fuel is adequate: with at least `l.length` fuel the scan never
hits the zero-fuel case, so `subParen` computes the full substitution. -/
theorem subParenFuel_adequate : ∀ (n m : Nat) (l : Str), l.length ≤ n → l.length ≤ m →
    subParenFuel n l = subParenFuel m l := by
  intro n
  induction n with
  | zero =>
    intro m l hn _
    match l with
    | [] => cases m <;> rfl
    | c :: cs => simp at hn
  | succ n ih =>
    intro m l hn hm
    match l with
    | [] => cases m <;> rfl
    | c :: cs =>
      match m with
      | 0 => simp at hm
      | m + 1 =>
        rw [subParenFuel, subParenFuel]
        rcases hp : parenMatchAt (c :: cs) with _ | rest
        · simp only []
          rw [ih m cs (by simpa using hn) (by simpa using hm)]
        · simp only []
          have hr := parenMatchAt_length hp
          rw [List.length_cons] at hn hm hr
          rw [ih m rest (by omega) (by omega)]

/-- Does `re.sub(r'\s*ft\.?\s*.+$', '', s, flags=IGNORECASE)` match starting
exactly here?  After the greedy `\s*` the next two characters must be `ft`
(case-insensitively); the optional dot, the second `\s*` and the mandatory
`.+$` together just require at least one further character. -/
def ftMatchAt (l : Str) : Bool :=
  match l.dropWhile pyIsSpace with
  | f :: t :: _ :: _ => (f = 'f' || f = 'F') && (t = 't' || t = 'T')
  | _ => false

/-- Embeds `re.sub(r'\s*ft\.?\s*.+$', '', s, flags=IGNORECASE)`: truncate at the
leftmost position where the pattern matches (the match always extends to
the end of the string). -/
def ftCut : Str → Str
  | [] => []
  | c :: cs => if ftMatchAt (c :: cs) then [] else c :: ftCut cs

/-- Does `re.sub(r'\s*x\s+.+$', '', s, flags=IGNORECASE)` match starting
exactly here?  After the greedy `\s*` we need `x` or `X`, then at least one
whitespace character, then (via `\s+ .+ $` with backtracking) at least one
further character of any kind. -/
def xMatchAt (l : Str) : Bool :=
  match l.dropWhile pyIsSpace with
  | x :: w :: _ :: _ => (x = 'x' || x = 'X') && pyIsSpace w
  | _ => false

/-- Embeds `re.sub(r'\s*x\s+.+$', '', s, flags=IGNORECASE)`: truncate at the
leftmost match position. -/
def xCut : Str → Str
  | [] => []
  | c :: cs => if xMatchAt (c :: cs) then [] else c :: xCut cs

/-- Python `str.split()` (no separator): split on whitespace runs,
producing no empty words. -/
def splitWsAux : Str → Str → List Str
  | [], cur => if cur = [] then [] else [cur.reverse]
  | c :: cs, cur =>
    if pyIsSpace c then
      if cur = [] then splitWsAux cs [] else cur.reverse :: splitWsAux cs []
    else splitWsAux cs (c :: cur)

/-- Python `str.split()`. -/
def splitWs (l : Str) : List Str := splitWsAux l []

/-- Embeds `title_clean`: parentheticals replaced by a space, stripped, whitespace
collapsed (`get_search_queries` lines 134-135, recomputed identically at
lines 195-196 and 338-339). -/
def titleCleanOf (title : Str) : Str :=
  collapseWs (pyStrip (subParen title))

/-- Embeds `artist_clean`: text before the first `/`, stripped, then the `ft.`
and `x` collaborator-suffix substitutions (lines 137-139). -/
def artistCleanOf (artist : Str) : Str :=
  xCut (ftCut (pyStrip (artist.takeWhile (fun c => c ≠ '/'))))

/-- Embeds `title_simple`: `title_clean` with non-word/non-space characters
removed, stripped, whitespace collapsed (lines 142-143). -/
def titleSimpleOf (title : Str) : Str :=
  collapseWs (pyStrip (stripNonWord (titleCleanOf title)))

/-- Embeds `artist_simple` (line 145; note: no whitespace collapse here). -/
def artistSimpleOf (artist : Str) : Str :=
  pyStrip (stripNonWord (artistCleanOf artist))

/-- Embeds `title_first_word` (line 148): first whitespace-delimited token of the
simple title, or the simple title itself when it has no tokens. -/
def titleFirstWordOf (title : Str) : Str :=
  match splitWs (titleSimpleOf title) with
  | w :: _ => w
  | [] => titleSimpleOf title

/-- The raw query list built by `get_search_queries` (lines 151-163),
before deduplication. -/
def rawQueries (title artist : Str) : List Str :=
  let tc := titleCleanOf title
  let ac := artistCleanOf artist
  let ts := titleSimpleOf title
  let asp := artistSimpleOf artist
  let fw := titleFirstWordOf title
  [tc, tc ++ ' ' :: ac, ts, ts ++ ' ' :: asp, ac]
    ++ (if ts ≠ tc then [ts] else [])
    ++ (if 3 < fw.length then [fw] else [])

/-- The dedup loop of `get_search_queries` (lines 166-171): keep each
non-empty query the first time it is seen. -/
def dedupQueriesAux (seen : List Str) : List Str → List Str
  | [] => []
  | q :: qs =>
    if q ≠ [] ∧ q ∉ seen then q :: dedupQueriesAux (q :: seen) qs
    else dedupQueriesAux seen qs

/-- Embeds `get_search_queries(title, artist)` (lines 129-173). -/
def get_search_queries (title artist : Str) : List Str :=
  dedupQueriesAux [] (rawQueries title artist)

/-- A remote search result (`RemoteResult`): `popularityScore` is `none`
when the field is missing or null. -/
structure SongResult where
  id : Str
  title : Str
  artist : Str
  popularityScore : Option Int
deriving DecidableEq, Repr

/-- Embeds `result.get('popularityScore', 0) or 0`: missing and null both read
as `0`. -/
def popVal (o : Option Int) : Int :=
  match o with
  | none => 0
  | some v => v

/-- Embeds `normalize_for_comparison` (lines 112-117): lowercase, drop
non-word/non-space characters, collapse whitespace runs, strip. -/
def normalize_for_comparison (s : Str) : Str :=
  pyStrip (collapseWs (stripNonWord (pyLower s)))

/-- Embeds `title_matches` (lines 120-126): one normalized title is a substring
of the other. -/
def title_matches (searchTitle resultTitle : Str) : Bool :=
  let a := normalize_for_comparison searchTitle
  let b := normalize_for_comparison resultTitle
  decide (a <:+: b) || decide (b <:+: a)

/-- One step of the result-accumulation loop (lines 321-324 / 186-188):
append `(result, idx)` unless a result with the same id is already held. -/
def insertResult (all : List (SongResult × Nat)) (p : SongResult × Nat) :
    List (SongResult × Nat) :=
  if all.any (fun rp => rp.1.id = p.1.id) then all else all ++ [p]

/-- Embeds `for idx, result in enumerate(results)` starting at index `i`: fold the
response into the accumulator, pairing each result with its position. -/
def addResultsFrom (all : List (SongResult × Nat)) (i : Nat) :
    List SongResult → List (SongResult × Nat)
  | [] => all
  | r :: rs => addResultsFrom (insertResult all (r, i)) (i + 1) rs

/-- Fold one response page into the accumulator, pairing each result with
its 0-based position in the response. -/
def addResults (all : List (SongResult × Nat)) (results : List SongResult) :
    List (SongResult × Nat) :=
  addResultsFrom all 0 results

/-- The query loop shared by `process_song` (lines 317-327) and
`collect_candidates` (lines 182-190): try queries in order, accumulate the
first non-empty response, and stop as soon as the accumulator is
non-empty.  Returns the accumulated `(result, index)` pairs, the
`used_query`, and the list of queries actually sent to the search
collaborator. -/
def searchLoop (searchF : Str → List SongResult) (acc : List (SongResult × Nat))
    (used : Option Str) : List Str → List (SongResult × Nat) × Option Str × List Str
  | [] => (acc, used, [])
  | q :: qs =>
    let res := searchF q
    if res.isEmpty then
      let r := searchLoop searchF acc used qs
      (r.1, r.2.1, q :: r.2.2)
    else
      let acc' := addResults acc res
      if acc'.isEmpty then
        let r := searchLoop searchF acc' (some q) qs
        (r.1, r.2.1, q :: r.2.2)
      else (acc', some q, [q])

/-- Sort predicate realising Python's `key=sort_key` with
`sort_key = (-popularity, idx)` (lines 206-209 / 354-357). -/
def sortKeyLe (a b : SongResult × Nat) : Bool :=
  decide (popVal b.1.popularityScore < popVal a.1.popularityScore ∨
    (popVal a.1.popularityScore = popVal b.1.popularityScore ∧ a.2 ≤ b.2))

/-- Insert `x` into a sorted list, passing only elements strictly below it,
so that elements comparing equal keep their original relative order. -/
def insertSorted {α : Type} (le : α → α → Bool) (x : α) : List α → List α
  | [] => [x]
  | y :: ys =>
    if le y x && !le x y then y :: insertSorted le x ys else x :: y :: ys

/-- Stable sort by a boolean total preorder (insertion sort). -/
def stableSort {α : Type} (le : α → α → Bool) : List α → List α
  | [] => []
  | x :: xs => insertSorted le x (stableSort le xs)

/-- Embeds `matching_results.sort(key=sort_key)` — Python's stable sort with the
two-level key `(-popularity, idx)`. -/
def rankResults (l : List (SongResult × Nat)) : List (SongResult × Nat) :=
  stableSort sortKeyLe l

/-- A saved candidate (`collect_candidates` lines 214-222). -/
structure Candidate where
  id : Str
  title : Str
  artist : Str
  popularityScore : Option Int
  matchedQuery : Option Str
deriving DecidableEq, Repr

/-- Embeds `collect_candidates(title, artist, token, top_n)` (lines 176-224).
Returns the candidate list, `used_query`, and the trace of queries sent. -/
def collect_candidates (searchF : Str → List SongResult) (title artist : Str)
    (top_n : Nat) : List Candidate × Option Str × List Str :=
  let queries := get_search_queries title artist
  let r := searchLoop searchF [] none queries
  let all := r.1
  let used := r.2.1
  let called := r.2.2
  if all.isEmpty then ([], used, called)
  else
    let tc := titleCleanOf title
    let matching := all.filter (fun rp => title_matches tc rp.1.title)
    if matching.isEmpty then ([], used, called)
    else
      let trimmed := (rankResults matching).take top_n
      (trimmed.map (fun rp =>
        ⟨rp.1.id, rp.1.title, rp.1.artist, rp.1.popularityScore, used⟩),
       used, called)

/-- An `added` ledger record. -/
structure AddedRec where
  title : Str
  artist : Str
  song_id : Str
deriving DecidableEq, Repr

/-- A `failed` or `skipped` ledger record. -/
structure ReasonRec where
  title : Str
  artist : Str
  reason : Str
deriving DecidableEq, Repr

/-- The progress ledger (`.song_progress.json`). -/
structure Progress where
  processed : List Str
  added : List AddedRec
  failed : List ReasonRec
  skipped : List ReasonRec
deriving DecidableEq, Repr

/-- The ledger produced by `load_progress` when no file exists. -/
def emptyProgress : Progress := ⟨[], [], [], []⟩

/-- Observable actions of one processing step: a search-collaborator call,
an import-collaborator call, a ledger write of each kind, and a persist
(`save_progress`). -/
inductive Ev where
  | search : Str → Ev
  | imp : Str → Ev
  | skipWrite : Str → Ev
  | addWrite : Str → Ev
  | failWrite : Str → Ev
  | persist : Ev
deriving DecidableEq, Repr

/-- The candidate-fallback loop of `process_song` (lines 363-393): in
dry-run mode report and stop at the first candidate with no ledger change;
otherwise attempt the import for each candidate in ranked order, recording
`added` on the first success (and dropping stale `skipped` entries with the
same title) or `failed` after exhausting the list. -/
def tryCandidates (importF : Str → Bool) (dryRun : Bool) (title artist key : Str)
    (p : Progress) : List (SongResult × Nat) → Bool × Progress × List Ev
  | [] =>
    (false,
     { p with failed := p.failed ++ [⟨title, artist, ("All candidates failed").data⟩],
              processed := p.processed ++ [key] },
     [Ev.failWrite ("All candidates failed").data, Ev.persist])
  | rp :: rest =>
    if dryRun then (true, p, [])
    else if importF rp.1.id then
      (true,
       { p with added := p.added ++ [⟨title, artist, rp.1.id⟩],
                processed := p.processed ++ [key],
                skipped := p.skipped.filter (fun s => s.title ≠ title) },
       [Ev.imp rp.1.id, Ev.addWrite rp.1.id, Ev.persist])
    else
      let r := tryCandidates importF dryRun title artist key p rest
      (r.1, r.2.1, Ev.imp rp.1.id :: r.2.2)

/-- Embeds `process_song(title, artist, original_line, token, progress, dry_run)`
(lines 309-393).  Returns the success flag, the updated ledger, and the
trace of collaborator calls and ledger writes. -/
def process_song (searchF : Str → List SongResult) (importF : Str → Bool)
    (title artist key : Str) (dryRun : Bool) (p : Progress) :
    Bool × Progress × List Ev :=
  let queries := get_search_queries title artist
  let r := searchLoop searchF [] none queries
  let all := r.1
  let sEvs := r.2.2.map Ev.search
  if all.isEmpty then
    (false,
     { p with skipped := p.skipped ++ [⟨title, artist, ("No results found").data⟩],
              processed := p.processed ++ [key] },
     sEvs ++ [Ev.skipWrite ("No results found").data, Ev.persist])
  else
    let tc := titleCleanOf title
    let matching := all.filter (fun rp => title_matches tc rp.1.title)
    if matching.isEmpty then
      (false,
       { p with skipped := p.skipped ++ [⟨title, artist, ("No title match").data⟩],
                processed := p.processed ++ [key] },
       sEvs ++ [Ev.skipWrite ("No title match").data, Ev.persist])
    else
      let t := tryCandidates importF dryRun title artist key p (rankResults matching)
      (t.1, t.2.1, sEvs ++ t.2.2)

/-- Embeds `process_selected_song(song_id, title, artist, original_line, token,
progress)` (lines 396-414): phase B commit of one human-approved id. -/
def process_selected_song (importF : Str → Bool) (song_id title artist key : Str)
    (p : Progress) : Bool × Progress × List Ev :=
  if importF song_id then
    (true,
     { p with added := p.added ++ [⟨title, artist, song_id⟩],
              processed := p.processed ++ [key],
              skipped := p.skipped.filter (fun s => s.title ≠ title) },
     [Ev.imp song_id, Ev.addWrite song_id, Ev.persist])
  else
    (false,
     { p with failed := p.failed ++ [⟨title, artist, ("Failed with id ").data ++ song_id⟩],
              processed := p.processed ++ [key] },
     [Ev.imp song_id, Ev.failWrite (("Failed with id ").data ++ song_id), Ev.persist])

/-- Phase B skip-marking of an entry without a `selectedId` under
`--mark-unselected-skipped` (`main` lines 562-567). -/
def markUnselectedSkipped (title artist key : Str) (p : Progress) : Progress :=
  { p with skipped := (p.skipped.filter (fun s => s.title ≠ title)) ++
                      [⟨title, artist, ("No selectedId in candidates").data⟩],
           processed := p.processed ++ [key] }

/-- A requested item: `key` is the verbatim source line (`original_line`),
the identity used for ledger membership. -/
structure Item where
  title : Str
  artist : Str
  key : Str
deriving DecidableEq, Repr

/-- Embeds `remaining` (`main` lines 479-480): the requested items whose key is
not yet in the processed set, in source order. -/
def remainingOf (songs : List Item) (p : Progress) : List Item :=
  songs.filter (fun s => s.key ∉ p.processed)

/-- Embeds `to_process = remaining[:count]` (`main` line 590). -/
def toProcessOf (songs : List Item) (cnt : Nat) (p : Progress) : List Item :=
  (remainingOf songs p).take cnt

/-- The single-phase processing loop (`main` lines 606-608), threading the
ledger through `process_song` and tagging every trace event with the key of
the item that caused it. -/
def runItems (searchF : Str → List SongResult) (importF : Str → Bool)
    (dryRun : Bool) (p : Progress) : List Item → Progress × List (Str × Ev)
  | [] => (p, [])
  | it :: rest =>
    let s := process_song searchF importF it.title it.artist it.key dryRun p
    let r := runItems searchF importF dryRun s.2.1 rest
    (r.1, s.2.2.map (fun e => (it.key, e)) ++ r.2)

/-- One single-phase run of the Job Runner (`main`, default mode): select
the unprocessed items up to the count and process them in order. -/
def runJob (searchF : Str → List SongResult) (importF : Str → Bool)
    (songs : List Item) (cnt : Nat) (dryRun : Bool) (p : Progress) :
    Progress × List (Str × Ev) :=
  runItems searchF importF dryRun p (toProcessOf songs cnt p)

/-- One entry of the serialized `CandidateBatch` (`main` lines 506-513). -/
structure BatchEntry where
  title : Str
  artist : Str
  original_line : Str
  candidates : List Candidate
  selectedId : Option Str
  matchedQuery : Option Str
deriving DecidableEq, Repr

/-- One item of the `--search-only` loop (`main` lines 503-519): run the
resolution pipeline, record the batch entry, tag the search calls. -/
def searchOnlyStep (searchF : Str → List SongResult) (top_n : Nat) (it : Item) :
    BatchEntry × List (Str × Ev) :=
  let r := collect_candidates searchF it.title it.artist top_n
  (⟨it.title, it.artist, it.key, r.1, none, r.2.1⟩,
   r.2.2.map (fun q => (it.key, Ev.search q)))

/-- A `--search-only` (phase A) run (`main` lines 482-527): produces the
candidate batch and a trace, and passes the ledger through untouched (the
branch contains no ledger mutation and no `save_progress` call). -/
def searchOnlyRun (searchF : Str → List SongResult) (songs : List Item)
    (cnt top_n : Nat) (p : Progress) :
    List BatchEntry × Progress × List (Str × Ev) :=
  let tp := toProcessOf songs cnt p
  let steps := tp.map (searchOnlyStep searchF top_n)
  (steps.map Prod.fst, p, steps.flatMap Prod.snd)

/-! ### Shared lemmas -/

theorem insertResult_ne_nil (all : List (SongResult × Nat)) (p : SongResult × Nat) :
    insertResult all p ≠ [] := by
  unfold insertResult
  split
  · next h =>
    intro hn
    subst hn
    simp at h
  · simp

theorem addResultsFrom_ne_nil : ∀ (res : List SongResult) (all : List (SongResult × Nat))
    (i : Nat), all ≠ [] → addResultsFrom all i res ≠ [] := by
  intro res
  induction res with
  | nil => intro all i h; simpa [addResultsFrom] using h
  | cons r rs ih =>
    intro all i h
    rw [addResultsFrom]
    exact ih _ _ (insertResult_ne_nil all (r, i))

theorem addResults_ne_nil {res : List SongResult} (all : List (SongResult × Nat))
    (h : res ≠ []) : addResults all res ≠ [] := by
  match res with
  | [] => exact absurd rfl h
  | r :: rs =>
    rw [addResults, addResultsFrom]
    exact addResultsFrom_ne_nil rs _ 1 (insertResult_ne_nil all (r, 0))

/-- The query prefix the loop is claimed to send: every query up to and
including the first one whose response is non-empty (stated from the
claim, for comparison with the loop in the source). -/
def callsUpToFirstNonEmpty (f : Str → List SongResult) (qs : List Str) : List Str :=
  qs.takeWhile (fun q => (f q).isEmpty) ++ (qs.dropWhile (fun q => (f q).isEmpty)).take 1

theorem searchLoop_calls (f : Str → List SongResult) :
    ∀ (qs : List Str) (u : Option Str),
      (searchLoop f [] u qs).2.2 = callsUpToFirstNonEmpty f qs := by
  intro qs
  induction qs with
  | nil => intro u; simp [searchLoop, callsUpToFirstNonEmpty]
  | cons q qs ih =>
    intro u
    by_cases hq : (f q).isEmpty
    · rw [searchLoop]
      simp only [hq, if_pos]
      rw [callsUpToFirstNonEmpty, List.takeWhile_cons, List.dropWhile_cons]
      simp only [hq]
      simp [ih u, callsUpToFirstNonEmpty]
    · have hne : f q ≠ [] := by simpa [List.isEmpty_iff] using hq
      have hacc : addResults [] (f q) ≠ [] := addResults_ne_nil [] hne
      rw [searchLoop]
      simp only [hq, if_neg, Bool.false_eq_true, not_false_iff]
      rw [if_neg (by simpa [List.isEmpty_iff] using hacc)]
      rw [callsUpToFirstNonEmpty, List.takeWhile_cons, List.dropWhile_cons]
      simp [hq]

/-- The queries a trace sent to the search collaborator, in order. -/
def searchCallsOf (evs : List Ev) : List Str :=
  evs.filterMap (fun e => match e with | Ev.search q => some q | _ => none)

theorem tryCandidates_no_search (importF : Str → Bool) (d : Bool) (t a k : Str)
    (p : Progress) : ∀ cands, searchCallsOf (tryCandidates importF d t a k p cands).2.2 = [] := by
  intro cands
  induction cands with
  | nil => simp [tryCandidates, searchCallsOf]
  | cons rp rest ih =>
    rw [tryCandidates]
    cases d with
    | true => simp [searchCallsOf]
    | false =>
      by_cases hi : importF rp.1.id
      · simp [hi, searchCallsOf]
      · simp only [hi, Bool.false_eq_true, if_false]
        simpa [searchCallsOf] using ih

theorem searchCallsOf_append (l1 l2 : List Ev) :
    searchCallsOf (l1 ++ l2) = searchCallsOf l1 ++ searchCallsOf l2 := by
  simp [searchCallsOf]

/-! ### C3: the Resolution Pipeline stops at the first non-empty query -/

/-- C3: for every requested item the pipeline invokes the search
collaborator on the generated queries in order and stops at the first
query returning a non-empty result set; later queries are never invoked
(this holds whatever the Match Filter later discards — the trace does not
depend on the filtering stage).  Both copies of the loop
(`collect_candidates` and `process_song`) are covered. -/
theorem C3_stop_at_first_nonempty (searchF : Str → List SongResult)
    (importF : Str → Bool) (title artist key : Str) (top_n : Nat) (dryRun : Bool)
    (p : Progress) :
    (collect_candidates searchF title artist top_n).2.2 =
      callsUpToFirstNonEmpty searchF (get_search_queries title artist) ∧
    searchCallsOf (process_song searchF importF title artist key dryRun p).2.2 =
      callsUpToFirstNonEmpty searchF (get_search_queries title artist) := by
  have hmap : ∀ (qs : List Str), searchCallsOf (qs.map Ev.search) = qs := by
    intro qs; induction qs with
    | nil => simp [searchCallsOf]
    | cons q qs ih => simpa [searchCallsOf] using ih
  constructor
  · simp only [collect_candidates]
    split
    · exact searchLoop_calls searchF _ none
    · split
      · exact searchLoop_calls searchF _ none
      · exact searchLoop_calls searchF _ none
  · simp only [process_song]
    split
    · rw [searchCallsOf_append, hmap, searchLoop_calls searchF _ none]
      simp [searchCallsOf]
    · split
      · rw [searchCallsOf_append, hmap, searchLoop_calls searchF _ none]
        simp [searchCallsOf]
      · rw [searchCallsOf_append, hmap, searchLoop_calls searchF _ none]
        simp [tryCandidates_no_search]

/-! ### C4: the Candidate Ranker -/

theorem insertSorted_perm {α : Type} (le : α → α → Bool) (x : α) :
    ∀ l : List α, (insertSorted le x l).Perm (x :: l) := by
  intro l
  induction l with
  | nil => simp [insertSorted]
  | cons y ys ih =>
    rw [insertSorted]
    split
    · exact (ih.cons y).trans (List.Perm.swap x y ys)
    · exact List.Perm.refl _

theorem insertSorted_pairwise {α : Type} (le : α → α → Bool)
    (total : ∀ a b, (le a b || le b a) = true)
    (trans : ∀ a b c, le a b = true → le b c = true → le a c = true)
    (x : α) : ∀ l : List α, List.Pairwise (fun a b => le a b = true) l →
      List.Pairwise (fun a b => le a b = true) (insertSorted le x l) := by
  intro l
  induction l with
  | nil => intro _; simp [insertSorted]
  | cons y ys ih =>
    intro h
    rcases List.pairwise_cons.mp h with ⟨hy, hys⟩
    rw [insertSorted]
    split
    · next hlt =>
      have hyx : le y x = true := by
        cases h1 : le y x
        · rw [h1] at hlt; simp at hlt
        · rfl
      refine List.pairwise_cons.mpr ⟨?_, ih hys⟩
      intro z hz
      have hz2 := (insertSorted_perm le x ys).mem_iff.mp hz
      rcases List.mem_cons.mp hz2 with h1 | h2
      · exact h1 ▸ hyx
      · exact hy z h2
    · next hge =>
      have hxy : le x y = true := by
        cases h1 : le x y
        · exfalso
          have h2 : le y x = true := by
            have ht := total x y
            rw [h1] at ht
            simpa using ht
          apply hge
          rw [h2, h1]
          rfl
        · rfl
      refine List.pairwise_cons.mpr ⟨?_, h⟩
      intro z hz
      rcases List.mem_cons.mp hz with h1 | h2
      · exact h1 ▸ hxy
      · exact trans x y z hxy (hy z h2)

theorem stableSort_perm {α : Type} (le : α → α → Bool) :
    ∀ l : List α, (stableSort le l).Perm l := by
  intro l
  induction l with
  | nil => simp [stableSort]
  | cons x xs ih =>
    rw [stableSort]
    exact (insertSorted_perm le x (stableSort le xs)).trans (ih.cons x)

theorem stableSort_pairwise {α : Type} (le : α → α → Bool)
    (total : ∀ a b, (le a b || le b a) = true)
    (trans : ∀ a b c, le a b = true → le b c = true → le a c = true) :
    ∀ l : List α, List.Pairwise (fun a b => le a b = true) (stableSort le l) := by
  intro l
  induction l with
  | nil => simp [stableSort]
  | cons x xs ih =>
    rw [stableSort]
    exact insertSorted_pairwise le total trans x _ ih

theorem sortKeyLe_total (a b : SongResult × Nat) :
    (sortKeyLe a b || sortKeyLe b a) = true := by
  simp only [sortKeyLe, Bool.or_eq_true, decide_eq_true_eq]
  omega

theorem sortKeyLe_trans (a b c : SongResult × Nat) (h1 : sortKeyLe a b = true)
    (h2 : sortKeyLe b c = true) : sortKeyLe a c = true := by
  simp only [sortKeyLe, decide_eq_true_eq] at h1 h2 ⊢
  omega

/-- C4: the ranker is a permutation of its input sorted by descending
popularity with ties broken by ascending original index; missing/null
popularity reads as `0`; and the documented example ranks as `[B, C, A]`. -/
theorem C4_ranker_order (l : List (SongResult × Nat)) :
    (rankResults l).Perm l ∧
    List.Pairwise (fun a b =>
      popVal b.1.popularityScore < popVal a.1.popularityScore ∨
      (popVal a.1.popularityScore = popVal b.1.popularityScore ∧ a.2 ≤ b.2))
      (rankResults l) ∧
    popVal none = 0 ∧
    rankResults
        [(⟨("A").data, [], [], some 10⟩, 0),
         (⟨("B").data, [], [], some 20⟩, 1),
         (⟨("C").data, [], [], some 20⟩, 2)] =
        [(⟨("B").data, [], [], some 20⟩, 1),
         (⟨("C").data, [], [], some 20⟩, 2),
         (⟨("A").data, [], [], some 10⟩, 0)] := by
  refine ⟨stableSort_perm sortKeyLe l, ?_, rfl, by decide⟩
  have hs := stableSort_pairwise sortKeyLe sortKeyLe_total sortKeyLe_trans l
  exact hs.imp (fun h => by simpa [sortKeyLe, decide_eq_true_eq] using h)

/-! ### C5: the Query Generator -/

theorem mem_dedupQueriesAux : ∀ (l seen : List Str) (q : Str),
    q ∈ dedupQueriesAux seen l ↔ q ∈ l ∧ q ≠ [] ∧ q ∉ seen := by
  intro l
  induction l with
  | nil => intro seen q; simp [dedupQueriesAux]
  | cons q' qs ih =>
    intro seen q
    rw [dedupQueriesAux]
    split
    · next hcond =>
      by_cases hq : q = q'
      · subst hq
        simp [ih, hcond.1, hcond.2]
      · simp only [List.mem_cons, ih, List.mem_cons]
        constructor
        · rintro (h1 | ⟨h1, h2, h3⟩)
          · exact absurd h1 hq
          · exact ⟨Or.inr h1, h2, fun hs => h3 (Or.inr hs)⟩
        · rintro ⟨h1 | h1, h2, h3⟩
          · exact absurd h1 hq
          · exact Or.inr ⟨h1, h2, fun hs => (by
              rcases hs with hs | hs
              · exact hq hs
              · exact h3 hs)⟩
    · next hcond =>
      rw [ih]
      rw [not_and_or] at hcond
      constructor
      · rintro ⟨h1, h2, h3⟩
        exact ⟨List.mem_cons_of_mem q' h1, h2, h3⟩
      · rintro ⟨h1, h2, h3⟩
        rcases List.mem_cons.mp h1 with h4 | h4
        · subst h4
          rcases hcond with hc | hc
          · exact absurd h2 hc
          · exact absurd h3 hc
        · exact ⟨h4, h2, h3⟩

theorem nodup_dedupQueriesAux : ∀ (l seen : List Str),
    (dedupQueriesAux seen l).Nodup := by
  intro l
  induction l with
  | nil => intro seen; simp [dedupQueriesAux]
  | cons q' qs ih =>
    intro seen
    rw [dedupQueriesAux]
    split
    · refine List.nodup_cons.mpr ⟨?_, ih (q' :: seen)⟩
      intro hmem
      exact ((mem_dedupQueriesAux qs (q' :: seen) q').mp hmem).2.2 (List.mem_cons_self q' seen)
    · exact ih seen

theorem sublist_dedupQueriesAux : ∀ (l seen : List Str),
    (dedupQueriesAux seen l).Sublist l := by
  intro l
  induction l with
  | nil => intro seen; simp [dedupQueriesAux]
  | cons q' qs ih =>
    intro seen
    rw [dedupQueriesAux]
    split
    · exact (ih (q' :: seen)).cons₂ q'
    · exact (ih seen).cons q'

theorem rawQueries_length (title artist : Str) :
    (rawQueries title artist).length ≤ 7 := by
  rw [rawQueries]
  simp only [List.length_append, List.length_cons]
  split <;> split <;> simp

/-- C5 (amended): the Query Generator returns at most 7 queries with no
empty string and no duplicate, keeping first-occurrence order (the output
is a sublist of the raw query sequence); the dedicated single-token query
is appended only when the first token of the simple title is longer than 3
characters — but when that token is short it can still appear in the
output if it coincides with one of the five base queries (e.g. a
single-token title), in which case every returned query is one of the five
base queries. -/
theorem C5_query_generator_amended (title artist : Str) :
    (get_search_queries title artist).length ≤ 7 ∧
    (∀ q ∈ get_search_queries title artist, q ≠ []) ∧
    (get_search_queries title artist).Nodup ∧
    (get_search_queries title artist).Sublist (rawQueries title artist) ∧
    (3 < (titleFirstWordOf title).length →
      titleFirstWordOf title ∈ get_search_queries title artist) ∧
    ((titleFirstWordOf title).length ≤ 3 →
      ∀ q ∈ get_search_queries title artist,
        q ∈ [titleCleanOf title,
             titleCleanOf title ++ ' ' :: artistCleanOf artist,
             titleSimpleOf title,
             titleSimpleOf title ++ ' ' :: artistSimpleOf artist,
             artistCleanOf artist]) := by
  refine ⟨?_, ?_, nodup_dedupQueriesAux _ _, sublist_dedupQueriesAux _ _, ?_, ?_⟩
  · exact le_trans (sublist_dedupQueriesAux _ _).length_le (rawQueries_length title artist)
  · intro q hq
    exact ((mem_dedupQueriesAux _ _ q).mp hq).2.1
  · intro hlen
    apply (mem_dedupQueriesAux _ _ _).mpr
    refine ⟨?_, ?_, by simp⟩
    · rw [rawQueries]
      simp only [List.mem_append, hlen, if_pos]
      right
      simp
    · intro hnil
      rw [hnil] at hlen
      simp at hlen
  · intro hlen q hq
    have hraw : q ∈ rawQueries title artist :=
      (sublist_dedupQueriesAux _ _).subset hq
    rw [rawQueries] at hraw
    have hno : ¬(3 < (titleFirstWordOf title).length) := by omega
    simp only [hno, if_neg, if_false, List.append_nil, List.mem_append] at hraw
    rcases hraw with h1 | h2
    · simpa using h1
    · have : q = titleSimpleOf title := by
        rcases hst : decide (titleSimpleOf title ≠ titleCleanOf title) with hv | hv
        · rw [if_neg (by simpa using hst)] at h2
          simp at h2
        · rw [if_pos (by simpa using hst)] at h2
          simpa using h2
      simp [this]

/-- C5 counterexample: for title `"ab"` the first token of the simple
title has length 2 ≤ 3, yet that token is returned among the queries
(it coincides with the clean-title query), so the output does not include
the single-token query "only when that token's length exceeds 3". -/
theorem C5_counterexample :
    (titleFirstWordOf ("ab").data).length ≤ 3 ∧
    titleFirstWordOf ("ab").data ∈ get_search_queries ("ab").data ("zz").data := by
  decide

/-- Witness for the hypotheses of the amended C5 theorem. -/
theorem C5_witness :
    titleFirstWordOf ("Hello world").data ∈
      get_search_queries ("Hello world").data ("A").data ∧
    ("ab").data ∈ [titleCleanOf ("ab").data,
      titleCleanOf ("ab").data ++ ' ' :: artistCleanOf ("zz").data,
      titleSimpleOf ("ab").data,
      titleSimpleOf ("ab").data ++ ' ' :: artistSimpleOf ("zz").data,
      artistCleanOf ("zz").data] :=
  ⟨(C5_query_generator_amended ("Hello world").data ("A").data).2.2.2.2.1 (by decide),
   (C5_query_generator_amended ("ab").data ("zz").data).2.2.2.2.2 (by decide)
     ("ab").data (by decide)⟩

/-! ### C6: the clean artist -/

theorem ftCut_prefixOf : ∀ l : Str, ftCut l <+: l := by
  intro l
  induction l with
  | nil => simp [ftCut]
  | cons c cs ih =>
    rw [ftCut]
    split
    · exact List.nil_prefix
    · exact List.cons_prefix_cons.mpr ⟨rfl, ih⟩

theorem xCut_prefixOf : ∀ l : Str, xCut l <+: l := by
  intro l
  induction l with
  | nil => simp [xCut]
  | cons c cs ih =>
    rw [xCut]
    split
    · exact List.nil_prefix
    · exact List.cons_prefix_cons.mpr ⟨rfl, ih⟩

/-- C6 (amended): the clean artist is a prefix of the artist truncated at
the first `/` and stripped; the suffix patterns actually stripped
(case-insensitively) are `ft …`/`ft. …` and `x …` — a `feat. …` suffix is
NOT stripped, because the pattern `ft\.?` does not match the letters
`feat`: `"A ft. B"` yields `"A"`, `"A FT B"` yields `"A"`, `"A x B"`
yields `"A"`, `"A/B ft. C"` yields `"A"`, but `"A feat. B"` is returned
unchanged. -/
theorem C6_clean_artist_amended (artist : Str) :
    (artistCleanOf artist <+:
      pyStrip (artist.takeWhile (fun c => c ≠ '/'))) ∧
    artistCleanOf ("A ft. B").data = ("A").data ∧
    artistCleanOf ("A FT B").data = ("A").data ∧
    artistCleanOf ("A x B").data = ("A").data ∧
    artistCleanOf ("A/B ft. C").data = ("A").data ∧
    artistCleanOf ("A feat. B").data = ("A feat. B").data := by
  refine ⟨?_, by decide, by decide, by decide, by decide, by decide⟩
  rw [artistCleanOf]
  exact List.IsPrefix.trans (xCut_prefixOf _) (ftCut_prefixOf _)

/-- C6 counterexample: the claimed example `"A feat. B" ↦ "A"` is false —
the code leaves `"A feat. B"` unchanged (the regex strips `ft`/`ft.`, not
`feat.`). -/
theorem C6_counterexample :
    artistCleanOf ("A feat. B").data = ("A feat. B").data ∧
    ("A feat. B").data ≠ ("A").data := by
  decide

/-! ### C7: the Text Normalizer -/

theorem charOfNat_toNat (n : Nat) (h : n < 0xd800) : (Char.ofNat n).toNat = n := by
  have hv : n.isValidChar := Or.inl h
  simp [Char.ofNat, Char.toNat, hv, Char.ofNatAux, UInt32.toNat, BitVec.toNat_ofNatLt]

theorem toLower_not_isUpper (c : Char) : (Char.toLower c).isUpper = false := by
  simp only [Char.toLower, Char.isUpper]
  split
  · next h =>
    have hv : (Char.ofNat (c.toNat + 32)).toNat = c.toNat + 32 :=
      charOfNat_toNat _ (by simp only [Char.toNat] at h ⊢; omega)
    rw [Bool.and_eq_false_iff]
    right
    simp only [decide_eq_false_iff_not, UInt32.le_def, BitVec.le_def]
    simp only [Char.toNat, UInt32.toNat] at hv h ⊢
    simp only [show ((90 : UInt32)).toBitVec.toNat = 90 from rfl] at *
    omega
  · next h =>
    simp only [Char.toNat] at h
    rw [Bool.and_eq_false_iff]
    by_cases h65 : c.val.toNat ≥ 65
    · right
      simp only [decide_eq_false_iff_not, UInt32.le_def, BitVec.le_def]
      simp only [show ((90 : UInt32)).toBitVec.toNat = 90 from rfl]
      simp only [UInt32.toNat] at h65 h
      omega
    · left
      simp only [ge_iff_le, decide_eq_false_iff_not, UInt32.le_def, BitVec.le_def]
      simp only [show ((65 : UInt32)).toBitVec.toNat = 65 from rfl]
      simp only [UInt32.toNat] at h65
      omega

theorem mem_collapseWs : ∀ (l : Str) (c : Char), c ∈ collapseWs l →
    (c ∈ l ∧ pyIsSpace c = false) ∨ c = ' ' := by
  intro l
  induction l using collapseWs.induct with
  | case1 =>
    intro c hc
    simp [collapseWs] at hc
  | case2 c0 hs =>
    intro c hc
    rw [collapseWs, if_pos hs] at hc
    right
    simpa using hc
  | case3 c0 hs =>
    intro c hc
    rw [collapseWs, if_neg hs] at hc
    left
    rcases List.mem_singleton.mp hc with rfl
    exact ⟨List.mem_singleton_self c, by simpa using hs⟩
  | case4 c1 c2 cs hss ih =>
    intro c hc
    rw [collapseWs, if_pos hss] at hc
    rcases ih c hc with ⟨h1, h2⟩ | h
    · exact Or.inl ⟨List.mem_cons_of_mem c1 h1, h2⟩
    · exact Or.inr h
  | case5 c1 c2 cs hss ih =>
    intro c hc
    rw [collapseWs, if_neg hss] at hc
    rcases List.mem_cons.mp hc with h | h
    · subst h
      split
      · right; rfl
      · next hs1 =>
        exact Or.inl ⟨List.mem_cons_self _ _, by simpa using hs1⟩
    · rcases ih c h with ⟨h1, h2⟩ | hh
      · exact Or.inl ⟨List.mem_cons_of_mem c1 h1, h2⟩
      · exact Or.inr hh

theorem collapseWs_cons_head : ∀ (cs : Str) (c : Char), ∃ (d : Char) (t : Str),
    collapseWs (c :: cs) = d :: t ∧ pyIsSpace d = pyIsSpace c := by
  intro cs
  induction cs with
  | nil =>
    intro c
    rw [collapseWs]
    split
    · next hs => exact ⟨' ', [], rfl, by rw [hs]; decide⟩
    · next hs => exact ⟨c, [], rfl, rfl⟩
  | cons c2 cs2 ih =>
    intro c
    rw [collapseWs]
    split
    · next hss =>
      rcases ih c2 with ⟨d, t, heq, hd⟩
      refine ⟨d, t, heq, ?_⟩
      rw [Bool.and_eq_true] at hss
      rw [hd, hss.1, hss.2]
    · next hss =>
      split
      · next hs => exact ⟨' ', _, rfl, by rw [hs]; decide⟩
      · next hs => exact ⟨c, _, rfl, rfl⟩

theorem collapseWs_chain : ∀ l : Str,
    List.Chain' (fun a b => ¬(pyIsSpace a = true ∧ pyIsSpace b = true)) (collapseWs l) := by
  intro l
  induction l using collapseWs.induct with
  | case1 => simp [collapseWs]
  | case2 c0 hs =>
    rw [collapseWs, if_pos hs]
    simp
  | case3 c0 hs =>
    rw [collapseWs, if_neg hs]
    simp
  | case4 c1 c2 cs hss ih =>
    rw [collapseWs, if_pos hss]
    exact ih
  | case5 c1 c2 cs hss ih =>
    rw [collapseWs, if_neg hss]
    refine List.chain'_cons'.mpr ⟨?_, ih⟩
    intro y hy
    rcases collapseWs_cons_head cs c2 with ⟨d, t, heq, hd⟩
    rw [heq] at hy
    simp only [List.head?_cons, Option.mem_def, Option.some.injEq] at hy
    subst hy
    intro ⟨ha, hb⟩
    apply hss
    rw [hd] at hb
    have ha2 : pyIsSpace c1 = true := by
      by_cases h1 : pyIsSpace c1 = true
      · exact h1
      · rw [if_neg h1] at ha
        exact absurd ha h1
    rw [ha2, hb]
    rfl

theorem pyStrip_prefix_dropWhile (l : Str) :
    pyStrip l <+: l.dropWhile pyIsSpace := by
  rw [pyStrip]
  have h1 : ((l.dropWhile pyIsSpace).reverse.dropWhile pyIsSpace) <:+
      (l.dropWhile pyIsSpace).reverse := List.dropWhile_suffix pyIsSpace
  have h2 := h1.reverse
  rwa [List.reverse_reverse] at h2

theorem pyStrip_infixOf (l : Str) : pyStrip l <:+: l :=
  List.IsInfix.trans (List.IsPrefix.isInfix (pyStrip_prefix_dropWhile l))
    (List.IsSuffix.isInfix (List.dropWhile_suffix pyIsSpace))

theorem dropWhile_eq_cons_not {p : Char → Bool} : ∀ {l t : Str} {c : Char},
    l.dropWhile p = c :: t → p c = false := by
  intro l
  induction l with
  | nil => intro t c h; simp at h
  | cons a as ih =>
    intro t c h
    rw [List.dropWhile_cons] at h
    split at h
    · exact ih h
    · next hp =>
      cases h
      simpa using hp

theorem pyStrip_head_not_space {l : Str} {c : Char} {t : Str}
    (h : pyStrip l = c :: t) : pyIsSpace c = false := by
  rcases pyStrip_prefix_dropWhile l with ⟨s, hs⟩
  rw [h] at hs
  exact dropWhile_eq_cons_not hs.symm

theorem pyStrip_getLast_not_space {l : Str} {c : Char} {t : Str}
    (h : pyStrip l = t ++ [c]) : pyIsSpace c = false := by
  have hrev : (pyStrip l).reverse = c :: t.reverse := by
    rw [h]; simp
  rw [pyStrip, List.reverse_reverse] at hrev
  exact dropWhile_eq_cons_not hrev

/-- C7 (amended): `normalize_for_comparison` lowercases, removes every
character that is not a letter, digit, underscore or whitespace (the
Python class `\w` keeps the underscore, so underscores survive), collapses
whitespace runs to single spaces and trims; it is a pure total function.
Concretely: every output character is an alphanumeric non-uppercase
character, an underscore or a space; the output neither starts nor ends
with a space and never contains two adjacent spaces. -/
theorem C7_normalize_amended (s : Str) :
    (∀ c ∈ normalize_for_comparison s,
      (c.isAlphanum = true ∨ c = '_' ∨ c = ' ') ∧ c.isUpper = false) ∧
    (∀ t : Str, normalize_for_comparison s ≠ ' ' :: t) ∧
    (∀ t : Str, normalize_for_comparison s ≠ t ++ [' ']) ∧
    List.Chain' (fun a b => ¬(a = ' ' ∧ b = ' ')) (normalize_for_comparison s) ∧
    normalize_for_comparison ("A_b  c!").data = ("a_b c").data := by
  refine ⟨?_, ?_, ?_, ?_, by decide⟩
  · intro c hc
    have hc1 : c ∈ collapseWs (stripNonWord (pyLower s)) :=
      List.IsInfix.subset (pyStrip_infixOf _) hc
    rcases mem_collapseWs _ c hc1 with ⟨h1, h2⟩ | h
    · rcases List.mem_filter.mp h1 with ⟨h3, h4⟩
      have hw : isWordChar c = true := by
        rw [Bool.or_eq_true] at h4
        rcases h4 with h5 | h5
        · exact h5
        · rw [h5] at h2; cases h2
      have hup : c.isUpper = false := by
        rcases List.mem_map.mp h3 with ⟨c0, _, hc0⟩
        rw [← hc0]
        exact toLower_not_isUpper c0
      rw [isWordChar, Bool.or_eq_true] at hw
      rcases hw with h5 | h5
      · exact ⟨Or.inl h5, hup⟩
      · exact ⟨Or.inr (Or.inl (by simpa using h5)), hup⟩
    · subst h
      exact ⟨Or.inr (Or.inr rfl), by decide⟩
  · intro t ht
    have := pyStrip_head_not_space ht
    simp [pyIsSpace] at this
  · intro t ht
    have := pyStrip_getLast_not_space ht
    simp [pyIsSpace] at this
  · have hch := collapseWs_chain (stripNonWord (pyLower s))
    have hinf := pyStrip_infixOf (collapseWs (stripNonWord (pyLower s)))
    have hchInf := List.Chain'.infix hch hinf
    refine List.Chain'.imp ?_ hchInf
    intro a b hab ⟨ha, hb⟩
    exact hab ⟨by rw [ha]; rfl, by rw [hb]; rfl⟩

/-- C7 counterexample: the claim says every character that is not a
letter, digit or whitespace — explicitly including the underscore — is
removed; but the code keeps underscores (Python `\w` includes `_`):
normalizing `"a_b"` returns `"a_b"`, and `'_'` is neither a letter, a
digit nor whitespace. -/
theorem C7_counterexample :
    '_' ∈ normalize_for_comparison ("a_b").data ∧
    '_'.isAlpha = false ∧ '_'.isDigit = false ∧ pyIsSpace '_' = false := by
  decide

/-- Witness for the membership hypotheses of the amended C7 theorem. -/
theorem C7_witness :
    ((('a').isAlphanum = true ∨ ('a') = '_' ∨ ('a') = ' ') ∧ ('a').isUpper = false) :=
  (C7_normalize_amended ("A").data).1 'a' (by decide)

/-! ### Branch lemmas for `process_song` -/

/-- The accumulated result set of the query loop for one item. -/
def allResultsOf (searchF : Str → List SongResult) (title artist : Str) :
    List (SongResult × Nat) :=
  (searchLoop searchF [] none (get_search_queries title artist)).1

/-- The results surviving the Match Filter for one item. -/
def matchingOf (searchF : Str → List SongResult) (title artist : Str) :
    List (SongResult × Nat) :=
  (allResultsOf searchF title artist).filter
    (fun rp => title_matches (titleCleanOf title) rp.1.title)

/-- The query trace of the loop for one item. -/
def calledOf (searchF : Str → List SongResult) (title artist : Str) : List Str :=
  (searchLoop searchF [] none (get_search_queries title artist)).2.2

theorem searchLoop_all_empty (searchF : Str → List SongResult) :
    ∀ (qs : List Str) (acc : List (SongResult × Nat)) (u : Option Str),
      (∀ q ∈ qs, searchF q = []) → searchLoop searchF acc u qs = (acc, u, qs) := by
  intro qs
  induction qs with
  | nil => intro acc u _; rfl
  | cons q rest ih =>
    intro acc u h
    rw [searchLoop]
    have hq : searchF q = [] := h q (List.mem_cons_self q rest)
    simp only [hq, List.isEmpty_nil, if_true]
    rw [ih acc u (fun x hx => h x (List.mem_cons_of_mem q hx))]

theorem process_song_no_results (searchF : Str → List SongResult)
    (importF : Str → Bool) (title artist key : Str) (d : Bool) (p : Progress)
    (h : allResultsOf searchF title artist = []) :
    process_song searchF importF title artist key d p =
      (false,
       { p with skipped := p.skipped ++ [⟨title, artist, ("No results found").data⟩],
                processed := p.processed ++ [key] },
       (calledOf searchF title artist).map Ev.search ++
         [Ev.skipWrite ("No results found").data, Ev.persist]) := by
  rw [allResultsOf] at h
  simp only [process_song, calledOf]
  rw [if_pos (by rw [List.isEmpty_iff]; exact h)]

theorem process_song_no_match (searchF : Str → List SongResult)
    (importF : Str → Bool) (title artist key : Str) (d : Bool) (p : Progress)
    (h1 : allResultsOf searchF title artist ≠ [])
    (h2 : matchingOf searchF title artist = []) :
    process_song searchF importF title artist key d p =
      (false,
       { p with skipped := p.skipped ++ [⟨title, artist, ("No title match").data⟩],
                processed := p.processed ++ [key] },
       (calledOf searchF title artist).map Ev.search ++
         [Ev.skipWrite ("No title match").data, Ev.persist]) := by
  rw [allResultsOf] at h1
  rw [matchingOf, allResultsOf] at h2
  simp only [process_song, calledOf]
  rw [if_neg (by rw [List.isEmpty_iff]; exact h1)]
  rw [if_pos (by rw [List.isEmpty_iff]; exact h2)]

theorem process_song_with_match (searchF : Str → List SongResult)
    (importF : Str → Bool) (title artist key : Str) (d : Bool) (p : Progress)
    (h2 : matchingOf searchF title artist ≠ []) :
    process_song searchF importF title artist key d p =
      ((tryCandidates importF d title artist key p
          (rankResults (matchingOf searchF title artist))).1,
       (tryCandidates importF d title artist key p
          (rankResults (matchingOf searchF title artist))).2.1,
       (calledOf searchF title artist).map Ev.search ++
         (tryCandidates importF d title artist key p
            (rankResults (matchingOf searchF title artist))).2.2) := by
  have h1 : allResultsOf searchF title artist ≠ [] := by
    intro hnil
    apply h2
    rw [matchingOf, hnil]
    rfl
  rw [allResultsOf] at h1
  rw [matchingOf, allResultsOf] at h2
  simp only [process_song, calledOf, matchingOf, allResultsOf]
  rw [if_neg (by rw [List.isEmpty_iff]; exact h1)]
  rw [if_neg (by rw [List.isEmpty_iff]; exact h2)]

theorem tryCandidates_all_fail (importF : Str → Bool) (title artist key : Str)
    (p : Progress) : ∀ cands, (∀ rp ∈ cands, importF rp.1.id = false) →
    tryCandidates importF false title artist key p cands =
      (false,
       { p with failed := p.failed ++ [⟨title, artist, ("All candidates failed").data⟩],
                processed := p.processed ++ [key] },
       cands.map (fun rp => Ev.imp rp.1.id) ++
         [Ev.failWrite ("All candidates failed").data, Ev.persist]) := by
  intro cands
  induction cands with
  | nil => intro _; rfl
  | cons rp rest ih =>
    intro h
    rw [tryCandidates]
    have hrp : importF rp.1.id = false := h rp (List.mem_cons_self rp rest)
    simp only [Bool.false_eq_true, if_false, hrp]
    rw [ih (fun x hx => h x (List.mem_cons_of_mem rp hx))]
    simp

theorem rankResults_ne_nil {l : List (SongResult × Nat)} (h : l ≠ []) :
    rankResults l ≠ [] := by
  intro hnil
  apply h
  have hp := stableSort_perm sortKeyLe l
  rw [rankResults] at hnil
  rw [hnil] at hp
  exact hp.symm.eq_nil

/-! ### C8: discard paths write exactly one ledger entry -/

/-- C8: in single-phase processing, when no generated query returns
results the ledger gains exactly one `skipped` entry with reason
`"No results found"`, the processed set grows by exactly one, and the
importer is never invoked; when results exist but none pass the
Match Filter the single skipped reason is `"No title match"` (again with
no import call); when candidates exist and every import attempt fails, the
ledger gains exactly one `failed` entry with reason
`"All candidates failed"` and the processed set grows by exactly one. -/
theorem C8_discard_paths (searchF : Str → List SongResult) (importF : Str → Bool)
    (title artist key : Str) (p : Progress) :
    ((∀ q ∈ get_search_queries title artist, searchF q = []) →
      (process_song searchF importF title artist key false p).2.1 =
        { p with skipped := p.skipped ++ [⟨title, artist, ("No results found").data⟩],
                 processed := p.processed ++ [key] } ∧
      (∀ i : Str, Ev.imp i ∉ (process_song searchF importF title artist key false p).2.2)) ∧
    (allResultsOf searchF title artist ≠ [] →
      matchingOf searchF title artist = [] →
      (process_song searchF importF title artist key false p).2.1 =
        { p with skipped := p.skipped ++ [⟨title, artist, ("No title match").data⟩],
                 processed := p.processed ++ [key] } ∧
      (∀ i : Str, Ev.imp i ∉ (process_song searchF importF title artist key false p).2.2)) ∧
    (matchingOf searchF title artist ≠ [] →
      (∀ rp ∈ matchingOf searchF title artist, importF rp.1.id = false) →
      (process_song searchF importF title artist key false p).2.1 =
        { p with failed := p.failed ++ [⟨title, artist, ("All candidates failed").data⟩],
                 processed := p.processed ++ [key] }) := by
  refine ⟨?_, ?_, ?_⟩
  · intro h
    have hall : allResultsOf searchF title artist = [] := by
      rw [allResultsOf, searchLoop_all_empty searchF _ [] none h]
    rw [process_song_no_results searchF importF title artist key false p hall]
    exact ⟨rfl, by simp⟩
  · intro h1 h2
    rw [process_song_no_match searchF importF title artist key false p h1 h2]
    exact ⟨rfl, by simp⟩
  · intro h2 hf
    rw [process_song_with_match searchF importF title artist key false p h2]
    have hf2 : ∀ rp ∈ rankResults (matchingOf searchF title artist),
        importF rp.1.id = false := by
      intro rp hrp
      exact hf rp ((stableSort_perm sortKeyLe _).mem_iff.mp hrp)
    rw [tryCandidates_all_fail importF title artist key p _ hf2]

/-- Witness for C8: three concrete runs, one per discard path. -/
theorem C8_witness :
    ((process_song (fun _ => []) (fun _ => true)
        ("Blue").data ("X").data ("k").data false emptyProgress).2.1 =
      { emptyProgress with
          skipped := [⟨("Blue").data, ("X").data, ("No results found").data⟩],
          processed := [("k").data] }) ∧
    ((process_song
        (fun q => if q = ("T").data then [⟨("i1").data, ("Zzz").data, ("A").data, some 1⟩] else [])
        (fun _ => true) ("T").data ("A").data ("k2").data false emptyProgress).2.1 =
      { emptyProgress with
          skipped := [⟨("T").data, ("A").data, ("No title match").data⟩],
          processed := [("k2").data] }) ∧
    ((process_song
        (fun q => if q = ("T").data then [⟨("i1").data, ("T").data, ("A").data, some 1⟩] else [])
        (fun _ => false) ("T").data ("A").data ("k3").data false emptyProgress).2.1 =
      { emptyProgress with
          failed := [⟨("T").data, ("A").data, ("All candidates failed").data⟩],
          processed := [("k3").data] }) :=
  ⟨((C8_discard_paths (fun _ => []) (fun _ => true)
      ("Blue").data ("X").data ("k").data emptyProgress).1 (by decide)).1,
   ((C8_discard_paths
      (fun q => if q = ("T").data then [⟨("i1").data, ("Zzz").data, ("A").data, some 1⟩] else [])
      (fun _ => true) ("T").data ("A").data ("k2").data emptyProgress).2.1
      (by decide) (by decide)).1,
   (C8_discard_paths
      (fun q => if q = ("T").data then [⟨("i1").data, ("T").data, ("A").data, some 1⟩] else [])
      (fun _ => false) ("T").data ("A").data ("k3").data emptyProgress).2.2
      (by decide) (by decide)⟩

/-! ### C10: dry-run frame behaviour -/

/-- C10: in dry-run mode an item that resolves to at least one candidate
returns success with no import call, no ledger mutation and no persist;
but an item that resolves to no candidates (no results, or no title match)
still gets a `skipped` ledger entry, is marked processed, and the ledger
is persisted — dry run does not suppress ledger mutation on the discard
paths. -/
theorem C10_dry_run (searchF : Str → List SongResult) (importF : Str → Bool)
    (title artist key : Str) (p : Progress) :
    (matchingOf searchF title artist ≠ [] →
      process_song searchF importF title artist key true p =
        (true, p, (calledOf searchF title artist).map Ev.search) ∧
      (∀ i : Str, Ev.imp i ∉ (process_song searchF importF title artist key true p).2.2) ∧
      Ev.persist ∉ (process_song searchF importF title artist key true p).2.2) ∧
    (allResultsOf searchF title artist = [] →
      (process_song searchF importF title artist key true p).2.1 =
        { p with skipped := p.skipped ++ [⟨title, artist, ("No results found").data⟩],
                 processed := p.processed ++ [key] } ∧
      Ev.persist ∈ (process_song searchF importF title artist key true p).2.2) ∧
    (allResultsOf searchF title artist ≠ [] →
      matchingOf searchF title artist = [] →
      (process_song searchF importF title artist key true p).2.1 =
        { p with skipped := p.skipped ++ [⟨title, artist, ("No title match").data⟩],
                 processed := p.processed ++ [key] } ∧
      Ev.persist ∈ (process_song searchF importF title artist key true p).2.2) := by
  refine ⟨?_, ?_, ?_⟩
  · intro h2
    have hr := rankResults_ne_nil h2
    rcases hrm : rankResults (matchingOf searchF title artist) with _ | ⟨rp, rest⟩
    · exact absurd hrm hr
    · have heq := process_song_with_match searchF importF title artist key true p h2
      rw [hrm] at heq
      rw [tryCandidates] at heq
      simp only [if_pos] at heq
      rw [heq]
      refine ⟨by simp, by simp, by simp⟩
  · intro h
    rw [process_song_no_results searchF importF title artist key true p h]
    exact ⟨rfl, by simp⟩
  · intro h1 h2
    rw [process_song_no_match searchF importF title artist key true p h1 h2]
    exact ⟨rfl, by simp⟩

/-- Witness for C10: a dry run with a matching candidate leaves the ledger
untouched, and a dry run with no results still writes and persists. -/
theorem C10_witness :
    (process_song
        (fun q => if q = ("T").data then [⟨("i1").data, ("T").data, ("A").data, some 1⟩] else [])
        (fun _ => true) ("T").data ("A").data ("k").data true emptyProgress).2.1 =
      emptyProgress ∧
    ((process_song (fun _ => []) (fun _ => true)
        ("T").data ("A").data ("k").data true emptyProgress).2.1 =
      { emptyProgress with
          skipped := [⟨("T").data, ("A").data, ("No results found").data⟩],
          processed := [("k").data] }) :=
  ⟨by
    have h := ((C10_dry_run
      (fun q => if q = ("T").data then [⟨("i1").data, ("T").data, ("A").data, some 1⟩] else [])
      (fun _ => true) ("T").data ("A").data ("k").data emptyProgress).1 (by decide)).1
    rw [h],
   ((C10_dry_run (fun _ => []) (fun _ => true)
      ("T").data ("A").data ("k").data emptyProgress).2.1 (by decide)).1⟩

/-! ### C9: phase A (`--search-only`) frame behaviour -/

theorem collect_candidates_len (searchF : Str → List SongResult)
    (title artist : Str) (top_n : Nat) :
    (collect_candidates searchF title artist top_n).1.length ≤ top_n := by
  simp only [collect_candidates]
  split
  · simp
  · split
    · simp
    · simp only [List.length_map]
      exact List.length_take_le top_n _

/-- C9: a `--search-only` run performs no import and no ledger mutation —
the ledger passes through unchanged, every traced event is a search
call — and each produced batch entry carries at most `top_n` candidates. -/
theorem C9_search_only_frame (searchF : Str → List SongResult) (songs : List Item)
    (cnt top_n : Nat) (p : Progress) :
    (searchOnlyRun searchF songs cnt top_n p).2.1 = p ∧
    (∀ ke ∈ (searchOnlyRun searchF songs cnt top_n p).2.2,
      ∃ q : Str, ke.2 = Ev.search q) ∧
    (∀ e ∈ (searchOnlyRun searchF songs cnt top_n p).1,
      e.candidates.length ≤ top_n) := by
  refine ⟨rfl, ?_, ?_⟩
  · intro ke hke
    simp only [searchOnlyRun, List.mem_flatMap, List.mem_map] at hke
    rcases hke with ⟨step, ⟨it, _, hstep⟩, hmem⟩
    rw [← hstep] at hmem
    simp only [searchOnlyStep, List.mem_map] at hmem
    rcases hmem with ⟨q, _, hq⟩
    exact ⟨q, by rw [← hq]⟩
  · intro e he
    simp only [searchOnlyRun, List.mem_map] at he
    rcases he with ⟨step, ⟨it, _, hstep⟩, hfst⟩
    rw [← hstep] at hfst
    simp only [searchOnlyStep] at hfst
    rw [← hfst]
    exact collect_candidates_len searchF it.title it.artist top_n

/-- Witness for C9 at a concrete run: the oracle answers nothing, one item,
limit 1, top-5. -/
theorem C9_witness :
    (∃ q : Str, ((("k").data, Ev.search (("a").data)) : Str × Ev).2 = Ev.search q) ∧
    (⟨("a").data, ("b").data, ("k").data, [], none, none⟩ : BatchEntry).candidates.length ≤ 5 :=
  ⟨(C9_search_only_frame (fun _ => []) [⟨("a").data, ("b").data, ("k").data⟩]
      1 5 emptyProgress).2.1 ((("k").data, Ev.search (("a").data))) (by decide),
   (C9_search_only_frame (fun _ => []) [⟨("a").data, ("b").data, ("k").data⟩]
      1 5 emptyProgress).2.2 ⟨("a").data, ("b").data, ("k").data, [], none, none⟩ (by decide)⟩

/-! ### C1: already-processed items are skipped; idempotence -/

theorem tryCandidates_processed (importF : Str → Bool) (t a k : Str) (p : Progress) :
    ∀ cands, (tryCandidates importF false t a k p cands).2.1.processed =
      p.processed ++ [k] := by
  intro cands
  induction cands with
  | nil => rfl
  | cons rp rest ih =>
    rw [tryCandidates]
    by_cases hi : importF rp.1.id
    · simp [hi]
    · simp only [Bool.false_eq_true, if_false, hi]
      exact ih

theorem process_song_processed (searchF : Str → List SongResult)
    (importF : Str → Bool) (t a k : Str) (p : Progress) :
    (process_song searchF importF t a k false p).2.1.processed =
      p.processed ++ [k] := by
  by_cases hall : allResultsOf searchF t a = []
  · rw [process_song_no_results searchF importF t a k false p hall]
  · by_cases hm : matchingOf searchF t a = []
    · rw [process_song_no_match searchF importF t a k false p hall hm]
    · rw [process_song_with_match searchF importF t a k false p hm]
      exact tryCandidates_processed importF t a k p _

theorem runItems_processed (searchF : Str → List SongResult) (importF : Str → Bool) :
    ∀ (l : List Item) (p : Progress),
      (runItems searchF importF false p l).1.processed =
        p.processed ++ l.map (fun it => it.key) := by
  intro l
  induction l with
  | nil => intro p; simp [runItems]
  | cons it rest ih =>
    intro p
    rw [runItems]
    simp only []
    rw [ih, process_song_processed]
    simp

theorem runItems_trace_keys (searchF : Str → List SongResult) (importF : Str → Bool)
    (d : Bool) : ∀ (l : List Item) (p : Progress) (k : Str) (e : Ev),
      (k, e) ∈ (runItems searchF importF d p l).2 → ∃ it ∈ l, it.key = k := by
  intro l
  induction l with
  | nil => intro p k e h; simp [runItems] at h
  | cons it rest ih =>
    intro p k e h
    rw [runItems] at h
    simp only [List.mem_append, List.mem_map] at h
    rcases h with ⟨ev, _, heq⟩ | h
    · exact ⟨it, List.mem_cons_self it rest, (Prod.mk.injEq _ _ _ _ ▸ heq).1⟩
    · rcases ih _ k e h with ⟨it2, hmem, hk⟩
      exact ⟨it2, List.mem_cons_of_mem it hmem, hk⟩

/-- C1 (amended): an item whose `originalKey` is already in the processed
set is never attempted — no search call, no import call, no ledger write is
made for it (no trace event carries its key); consequently a second run
never re-attempts any item the first run marked processed, and when the
runner is invoked without dry-run with a limit covering every remaining
item, a second run with the same inputs processes zero items.  (As the
counterexample shows, with a smaller limit — or in dry-run mode — the
second run does attempt further, not-yet-processed items, so the original
"zero additional items" does not hold unconditionally.) -/
theorem C1_idempotence_amended (searchF : Str → List SongResult)
    (importF : Str → Bool) (songs : List Item) (cnt : Nat) (d : Bool)
    (p : Progress) (key : Str) :
    (key ∈ p.processed →
      (∀ it ∈ toProcessOf songs cnt p, it.key ≠ key) ∧
      (∀ e : Ev, (key, e) ∉ (runJob searchF importF songs cnt d p).2)) ∧
    (d = false → (remainingOf songs p).length ≤ cnt →
      toProcessOf songs cnt (runJob searchF importF songs cnt d p).1 = []) := by
  constructor
  · intro hkey
    have hrem : ∀ it ∈ toProcessOf songs cnt p, it.key ≠ key := by
      intro it hit
      have hmem : it ∈ remainingOf songs p := List.mem_of_mem_take hit
      have := (List.mem_filter.mp hmem).2
      intro hk
      rw [hk] at this
      simp only [decide_eq_true_eq] at this
      exact this hkey
    refine ⟨hrem, ?_⟩
    intro e hmem
    rcases runItems_trace_keys searchF importF d _ _ key e hmem with ⟨it, hit, hk⟩
    exact hrem it hit hk
  · intro hd hlen
    subst hd
    have hproc : (runJob searchF importF songs cnt false p).1.processed =
        p.processed ++ (toProcessOf songs cnt p).map (fun it => it.key) := by
      rw [runJob, runItems_processed]
    have htp : toProcessOf songs cnt p = remainingOf songs p := by
      rw [toProcessOf]
      exact List.take_of_length_le hlen
    rw [toProcessOf, remainingOf]
    rw [List.filter_eq_nil_iff.mpr ?_]
    · simp
    · intro s hs
      simp only [decide_eq_true_eq, not_not]
      rw [hproc, htp]
      by_cases hp : s.key ∈ p.processed
      · exact List.mem_append_left _ hp
      · apply List.mem_append_right
        apply List.mem_map_of_mem
        rw [remainingOf]
        exact List.mem_filter.mpr ⟨hs, by simpa using hp⟩

/-- C1 counterexample: with two requested items and a limit of 1, the
first run processes (and marks) only the first item; a second run with the
same inputs and the resulting ledger attempts the second item — it
processes one additional item, not zero. -/
theorem C1_counterexample :
    (runJob (fun _ => []) (fun _ => true)
      [⟨("a").data, ("b").data, ("k1").data⟩, ⟨("c").data, ("d").data, ("k2").data⟩]
      1 false emptyProgress).1.processed.length = 1 ∧
    toProcessOf
      [⟨("a").data, ("b").data, ("k1").data⟩, ⟨("c").data, ("d").data, ("k2").data⟩] 1
      (runJob (fun _ => []) (fun _ => true)
        [⟨("a").data, ("b").data, ("k1").data⟩, ⟨("c").data, ("d").data, ("k2").data⟩]
        1 false emptyProgress).1 =
      [⟨("c").data, ("d").data, ("k2").data⟩] ∧
    (runJob (fun _ => []) (fun _ => true)
      [⟨("a").data, ("b").data, ("k1").data⟩, ⟨("c").data, ("d").data, ("k2").data⟩] 1 false
      (runJob (fun _ => []) (fun _ => true)
        [⟨("a").data, ("b").data, ("k1").data⟩, ⟨("c").data, ("d").data, ("k2").data⟩]
        1 false emptyProgress).1).1.processed.length = 2 := by
  decide

/-- Witness for the hypotheses of the amended C1 theorem. -/
theorem C1_witness :
    (∀ it ∈ toProcessOf [⟨("a").data, ("b").data, ("k1").data⟩] 1
        ⟨[("k1").data], [], [], []⟩, it.key ≠ ("k1").data) ∧
    toProcessOf [⟨("a").data, ("b").data, ("k1").data⟩] 1
      (runJob (fun _ => []) (fun _ => true)
        [⟨("a").data, ("b").data, ("k1").data⟩] 1 false emptyProgress).1 = [] :=
  ⟨((C1_idempotence_amended (fun _ => []) (fun _ => true)
      [⟨("a").data, ("b").data, ("k1").data⟩] 1 false
      ⟨[("k1").data], [], [], []⟩ (("k1").data)).1 (by decide)).1,
   (C1_idempotence_amended (fun _ => []) (fun _ => true)
      [⟨("a").data, ("b").data, ("k1").data⟩] 1 false
      emptyProgress (("k1").data)).2 rfl (by decide)⟩

/-! ### C2: the ledger invariant -/

/-- The number of terminal records for item `i` across the `added`,
`failed` and `skipped` collections (records are matched by title and
artist — the records themselves do not store the `originalKey`). -/
def recCount (i : Item) (p : Progress) : Nat :=
  p.added.countP (fun r => decide (r.title = i.title ∧ r.artist = i.artist)) +
  p.failed.countP (fun r => decide (r.title = i.title ∧ r.artist = i.artist)) +
  p.skipped.countP (fun r => decide (r.title = i.title ∧ r.artist = i.artist))

/-- The invariant exactly as the claim states it: processed iff exactly
one terminal record (stated from the claim, for comparison). -/
def ClaimInv (items : List Item) (p : Progress) : Prop :=
  ∀ i ∈ items, (i.key ∈ p.processed ↔ recCount i p = 1)

/-- The strengthened (inductive) invariant: a processed item has exactly
one terminal record and an unprocessed item has none. -/
def StrongInv (items : List Item) (p : Progress) : Prop :=
  ∀ i ∈ items, recCount i p = if i.key ∈ p.processed then 1 else 0

theorem pairwise_distinct_extract {items : List Item}
    (hdist : items.Pairwise (fun a b => a.title ≠ b.title ∧ a.key ≠ b.key))
    {i j : Item} (hi : i ∈ items) (hj : j ∈ items) (hne : j ≠ i) :
    j.title ≠ i.title ∧ j.key ≠ i.key := by
  have hsym : Symmetric (fun a b : Item => a.title ≠ b.title ∧ a.key ≠ b.key) := by
    intro a b hab
    exact ⟨hab.1.symm, hab.2.symm⟩
  exact List.Pairwise.forall hsym hdist hj hi hne

theorem countP_skipFilter_other {i j : Item} (hne : j.title ≠ i.title)
    (sk : List ReasonRec) :
    (sk.filter (fun s => s.title ≠ i.title)).countP
        (fun r => decide (r.title = j.title ∧ r.artist = j.artist)) =
      sk.countP (fun r => decide (r.title = j.title ∧ r.artist = j.artist)) := by
  rw [List.countP_filter]
  apply List.countP_congr
  intro r _
  constructor
  · intro h
    rw [Bool.and_eq_true] at h
    exact h.1
  · intro h
    rw [Bool.and_eq_true]
    refine ⟨h, ?_⟩
    simp only [decide_eq_true_eq] at h ⊢
    rw [h.1]
    exact hne

theorem countP_skipFilter_self (i : Item) (sk : List ReasonRec) :
    (sk.filter (fun s => s.title ≠ i.title)).countP
        (fun r => decide (r.title = i.title ∧ r.artist = i.artist)) = 0 := by
  rw [List.countP_eq_zero]
  intro r hr
  have h2 := (List.mem_filter.mp hr).2
  simp only [decide_eq_true_eq] at h2 ⊢
  intro hc
  exact h2 hc.1

theorem strongInv_skip_append (items : List Item) (i : Item) (p : Progress) (r : Str)
    (hmem : i ∈ items)
    (hdist : items.Pairwise (fun a b => a.title ≠ b.title ∧ a.key ≠ b.key))
    (hkey : i.key ∉ p.processed) (hinv : StrongInv items p) :
    StrongInv items { p with skipped := p.skipped ++ [⟨i.title, i.artist, r⟩],
                             processed := p.processed ++ [i.key] } := by
  intro j hj
  by_cases hje : j = i
  · subst hje
    have h0 := hinv j hj
    rw [if_neg hkey] at h0
    rw [recCount] at h0 ⊢
    simp only [List.countP_append]
    rw [if_pos (by simp)]
    have hrec : List.countP (fun x => decide (x.title = j.title ∧ x.artist = j.artist))
        [(⟨j.title, j.artist, r⟩ : ReasonRec)] = 1 := by simp
    omega
  · rcases pairwise_distinct_extract hdist hmem hj hje with ⟨htne, hkne⟩
    have h0 := hinv j hj
    rw [recCount] at h0 ⊢
    simp only [List.countP_append]
    have hrec : List.countP (fun x => decide (x.title = j.title ∧ x.artist = j.artist))
        [(⟨i.title, i.artist, r⟩ : ReasonRec)] = 0 := by
      simp only [List.countP_cons, List.countP_nil]
      simp [htne.symm]
    have hmemEq : (j.key ∈ p.processed ++ [i.key]) = (j.key ∈ p.processed) := by
      simp [List.mem_append, hkne]
    simp only [hmemEq]
    omega

theorem strongInv_fail_append (items : List Item) (i : Item) (p : Progress) (r : Str)
    (hmem : i ∈ items)
    (hdist : items.Pairwise (fun a b => a.title ≠ b.title ∧ a.key ≠ b.key))
    (hkey : i.key ∉ p.processed) (hinv : StrongInv items p) :
    StrongInv items { p with failed := p.failed ++ [⟨i.title, i.artist, r⟩],
                             processed := p.processed ++ [i.key] } := by
  intro j hj
  by_cases hje : j = i
  · subst hje
    have h0 := hinv j hj
    rw [if_neg hkey] at h0
    rw [recCount] at h0 ⊢
    simp only [List.countP_append]
    rw [if_pos (by simp)]
    have hrec : List.countP (fun x => decide (x.title = j.title ∧ x.artist = j.artist))
        [(⟨j.title, j.artist, r⟩ : ReasonRec)] = 1 := by simp
    omega
  · rcases pairwise_distinct_extract hdist hmem hj hje with ⟨htne, hkne⟩
    have h0 := hinv j hj
    rw [recCount] at h0 ⊢
    simp only [List.countP_append]
    have hrec : List.countP (fun x => decide (x.title = j.title ∧ x.artist = j.artist))
        [(⟨i.title, i.artist, r⟩ : ReasonRec)] = 0 := by
      simp only [List.countP_cons, List.countP_nil]
      simp [htne.symm]
    have hmemEq : (j.key ∈ p.processed ++ [i.key]) = (j.key ∈ p.processed) := by
      simp [List.mem_append, hkne]
    simp only [hmemEq]
    omega

theorem strongInv_add (items : List Item) (i : Item) (p : Progress) (sid : Str)
    (hmem : i ∈ items)
    (hdist : items.Pairwise (fun a b => a.title ≠ b.title ∧ a.key ≠ b.key))
    (hkey : i.key ∉ p.processed) (hinv : StrongInv items p) :
    StrongInv items { p with added := p.added ++ [⟨i.title, i.artist, sid⟩],
                             processed := p.processed ++ [i.key],
                             skipped := p.skipped.filter (fun s => s.title ≠ i.title) } := by
  intro j hj
  by_cases hje : j = i
  · subst hje
    have h0 := hinv j hj
    rw [if_neg hkey] at h0
    rw [recCount] at h0 ⊢
    simp only [List.countP_append]
    rw [if_pos (by simp)]
    have hrec : List.countP (fun x => decide (x.title = j.title ∧ x.artist = j.artist))
        [(⟨j.title, j.artist, sid⟩ : AddedRec)] = 1 := by simp
    have hsk := countP_skipFilter_self j p.skipped
    omega
  · rcases pairwise_distinct_extract hdist hmem hj hje with ⟨htne, hkne⟩
    have h0 := hinv j hj
    rw [recCount] at h0 ⊢
    simp only [List.countP_append]
    have hrec : List.countP (fun x => decide (x.title = j.title ∧ x.artist = j.artist))
        [(⟨i.title, i.artist, sid⟩ : AddedRec)] = 0 := by
      simp only [List.countP_cons, List.countP_nil]
      simp [htne.symm]
    have hsk := countP_skipFilter_other htne p.skipped
    have hmemEq : (j.key ∈ p.processed ++ [i.key]) = (j.key ∈ p.processed) := by
      simp [List.mem_append, hkne]
    simp only [hmemEq]
    omega

theorem strongInv_markB (items : List Item) (i : Item) (p : Progress) (r : Str)
    (hmem : i ∈ items)
    (hdist : items.Pairwise (fun a b => a.title ≠ b.title ∧ a.key ≠ b.key))
    (hkey : i.key ∉ p.processed) (hinv : StrongInv items p) :
    StrongInv items { p with
        skipped := (p.skipped.filter (fun s => s.title ≠ i.title)) ++
          [⟨i.title, i.artist, r⟩],
        processed := p.processed ++ [i.key] } := by
  intro j hj
  by_cases hje : j = i
  · subst hje
    have h0 := hinv j hj
    rw [if_neg hkey] at h0
    rw [recCount] at h0 ⊢
    simp only [List.countP_append]
    rw [if_pos (by simp)]
    have hrec : List.countP (fun x => decide (x.title = j.title ∧ x.artist = j.artist))
        [(⟨j.title, j.artist, r⟩ : ReasonRec)] = 1 := by simp
    have hsk := countP_skipFilter_self j p.skipped
    omega
  · rcases pairwise_distinct_extract hdist hmem hj hje with ⟨htne, hkne⟩
    have h0 := hinv j hj
    rw [recCount] at h0 ⊢
    simp only [List.countP_append]
    have hrec : List.countP (fun x => decide (x.title = j.title ∧ x.artist = j.artist))
        [(⟨i.title, i.artist, r⟩ : ReasonRec)] = 0 := by
      simp only [List.countP_cons, List.countP_nil]
      simp [htne.symm]
    have hsk := countP_skipFilter_other htne p.skipped
    have hmemEq : (j.key ∈ p.processed ++ [i.key]) = (j.key ∈ p.processed) := by
      simp [List.mem_append, hkne]
    simp only [hmemEq]
    omega

theorem tryCandidates_inv (items : List Item) (i : Item) (p : Progress)
    (importF : Str → Bool) (d : Bool)
    (hmem : i ∈ items)
    (hdist : items.Pairwise (fun a b => a.title ≠ b.title ∧ a.key ≠ b.key))
    (hkey : i.key ∉ p.processed) (hinv : StrongInv items p) :
    ∀ cands, StrongInv items
      (tryCandidates importF d i.title i.artist i.key p cands).2.1 := by
  intro cands
  induction cands with
  | nil =>
    rw [tryCandidates]
    exact strongInv_fail_append items i p _ hmem hdist hkey hinv
  | cons rp rest ih =>
    rw [tryCandidates]
    cases d with
    | true => exact hinv
    | false =>
      by_cases hi : importF rp.1.id
      · simp only [hi, if_true, Bool.false_eq_true, if_false]
        exact strongInv_add items i p rp.1.id hmem hdist hkey hinv
      · simp only [hi, Bool.false_eq_true, if_false]
        exact ih

/-- C2 (amended): provided the requested items have pairwise distinct
titles and pairwise distinct `originalKey`s, every ledger-mutating
operation — single-phase `process_song` (in any mode, with any
collaborators), a phase-B commit via `process_selected_song`, and phase-B
skip-marking — preserves the invariant in its inductive form: an item's
key is in `processed` iff exactly one terminal record for it exists across
`added`/`failed`/`skipped` (and an unprocessed item has no record at all);
the empty ledger satisfies the invariant.  When two distinct requested
items share a title the invariant can be destroyed (see the
counterexample): adding one item removes the other's `skipped` record,
leaving a processed key with zero terminal records. -/
theorem C2_ledger_invariant_amended (items : List Item) (i : Item) (p : Progress)
    (searchF : Str → List SongResult) (importF : Str → Bool) (d : Bool) (sid : Str)
    (hmem : i ∈ items)
    (hdist : items.Pairwise (fun a b => a.title ≠ b.title ∧ a.key ≠ b.key))
    (hkey : i.key ∉ p.processed) (hinv : StrongInv items p) :
    StrongInv items (process_song searchF importF i.title i.artist i.key d p).2.1 ∧
    StrongInv items (process_selected_song importF sid i.title i.artist i.key p).2.1 ∧
    StrongInv items (markUnselectedSkipped i.title i.artist i.key p) ∧
    StrongInv items emptyProgress := by
  refine ⟨?_, ?_, ?_, ?_⟩
  · by_cases hall : allResultsOf searchF i.title i.artist = []
    · rw [process_song_no_results searchF importF i.title i.artist i.key d p hall]
      exact strongInv_skip_append items i p _ hmem hdist hkey hinv
    · by_cases hm : matchingOf searchF i.title i.artist = []
      · rw [process_song_no_match searchF importF i.title i.artist i.key d p hall hm]
        exact strongInv_skip_append items i p _ hmem hdist hkey hinv
      · rw [process_song_with_match searchF importF i.title i.artist i.key d p hm]
        exact tryCandidates_inv items i p importF d hmem hdist hkey hinv _
  · rw [process_selected_song]
    by_cases hi : importF sid
    · simp only [hi, if_true]
      exact strongInv_add items i p sid hmem hdist hkey hinv
    · simp only [hi, Bool.false_eq_true, if_false]
      exact strongInv_fail_append items i p _ hmem hdist hkey hinv
  · rw [markUnselectedSkipped]
    exact strongInv_markB items i p _ hmem hdist hkey hinv
  · intro j _
    simp [recCount, emptyProgress]

/-- The search oracle of the C2 counterexample: only the query
`"Blue Bob"` returns a (matching) result. -/
def cexSearch : Str → List SongResult :=
  fun s => if s = ("Blue Bob").data
    then [⟨("s1").data, ("Blue").data, ("Bob").data, some 5⟩] else []

/-- The ledger after single-phase processing of two distinct requested
items that share the title `"Blue"`: the first (by artist Ann) is skipped
for lack of results, the second (by artist Bob) is found and added. -/
def cexLedger : Progress :=
  (process_song cexSearch (fun _ => true) ("Blue").data ("Bob").data ("k2").data false
    (process_song cexSearch (fun _ => true) ("Blue").data ("Ann").data ("k1").data false
      emptyProgress).2.1).2.1

/-- C2 counterexample: after processing two distinct requested items that
share a title, the adding of the second removes the first item's
`skipped` record (the stale-skip filter matches on title only), so the
first item's key is in `processed` with zero terminal records — the
claimed invariant is false after a ledger-mutating operation. -/
theorem C2_counterexample :
    ("k1").data ∈ cexLedger.processed ∧
    recCount ⟨("Blue").data, ("Ann").data, ("k1").data⟩ cexLedger = 0 ∧
    ¬ ClaimInv [⟨("Blue").data, ("Ann").data, ("k1").data⟩,
                ⟨("Blue").data, ("Bob").data, ("k2").data⟩] cexLedger := by
  refine ⟨by decide, by decide, ?_⟩
  intro h
  have h1 := (h ⟨("Blue").data, ("Ann").data, ("k1").data⟩ (by decide)).mp (by decide)
  revert h1
  decide

/-- Witness for the hypotheses of the amended C2 theorem. -/
theorem C2_witness :
    StrongInv [⟨("a").data, ("b").data, ("k").data⟩]
      (process_song (fun _ => []) (fun _ => true)
        ("a").data ("b").data ("k").data false emptyProgress).2.1 :=
  (C2_ledger_invariant_amended [⟨("a").data, ("b").data, ("k").data⟩]
    ⟨("a").data, ("b").data, ("k").data⟩ emptyProgress
    (fun _ => []) (fun _ => true) false ("x").data
    (by decide) (by decide) (by decide)
    (by intro j hj; simp [recCount, emptyProgress])).1

end BatchAdd
